import Mathlib

/-!
Verification of the middle_out compression codec (src/src/*.cpp) against its
specification.  The C++ core is embedded shallowly: byte buffers are
`List Nat` with entries below 256, machine integers are `Nat` with explicit
`% 2^32` where 32-bit overflow is possible, and the file-scope mutable
encoder/decoder objects become explicit state records.  Bit masks by
`2^k - 1` from the source are written as `% 2^k`, and shifts by fixed
amounts as multiplication / division by powers of two, which agree on the
nonnegative values involved.
-/

namespace MiddleOut

/-- rANS probability precision in bits (rans.cpp, PROB_BITS). -/
def PROB_BITS : Nat := 12

/-- rANS probability scale, 1 << PROB_BITS (rans.cpp, PROB_SCALE). -/
def PROB_SCALE : Nat := 4096

/-- rANS lower renormalization bound, 1 << 16 (rans.cpp, RANS_L). -/
def RANS_L : Nat := 65536

/-- 2^32, the modulus of the uint32_t arithmetic in the source. -/
def U32 : Nat := 4294967296

/-! ## BitWriter / BitReader (bitstream.cpp) -/

/-- State of bitstream.cpp BitWriter: emitted bytes, the byte being
filled, and how many of its bits are filled (MSB first). -/
structure BitWriter where
  buffer : List Nat
  currentByte : Nat
  bitCount : Nat
deriving Repr, DecidableEq

/-- A fresh BitWriter (all members default-initialized). -/
def BitWriter.init : BitWriter := ⟨[], 0, 0⟩

/-- BitWriter::WriteBit: set bit (7 - bit_count) of current_byte when the
bit is 1; push the byte once 8 bits are filled. -/
def BitWriter.writeBit (w : BitWriter) (bit : Bool) : BitWriter :=
  let cur := if bit then w.currentByte ||| (1 <<< (7 - w.bitCount)) else w.currentByte
  if w.bitCount + 1 = 8 then ⟨w.buffer ++ [cur], 0, 0⟩
  else ⟨w.buffer, cur, w.bitCount + 1⟩

/-- Write a list of bits in order (the compressor's flag loop). -/
def BitWriter.writeAll (w : BitWriter) (bits : List Bool) : BitWriter :=
  bits.foldl BitWriter.writeBit w

/-- BitWriter::Flush: push the partially filled byte, its unwritten
low-order bits left 0. -/
def BitWriter.flush (w : BitWriter) : BitWriter :=
  if 0 < w.bitCount then ⟨w.buffer ++ [w.currentByte], 0, 0⟩ else w

/-- State of bitstream.cpp BitReader. -/
structure BitReader where
  data : List Nat
  byteIndex : Nat
  bitIndex : Nat
deriving Repr, DecidableEq

/-- A BitReader over a byte buffer. -/
def BitReader.init (d : List Nat) : BitReader := ⟨d, 0, 0⟩

/-- BitReader::ReadBit: 0 past end of buffer (without advancing), else
bit (7 - bit_index) of the current byte, advancing the cursor. -/
def BitReader.readBit (r : BitReader) : Bool × BitReader :=
  if r.data.length ≤ r.byteIndex then (false, r)
  else
    let bit := (r.data.getD r.byteIndex 0) >>> (7 - r.bitIndex) % 2 = 1
    if r.bitIndex + 1 = 8 then (bit, ⟨r.data, r.byteIndex + 1, 0⟩)
    else (bit, ⟨r.data, r.byteIndex, r.bitIndex + 1⟩)

/-- Read n bits in order, returning them with the final reader state. -/
def BitReader.readN (r : BitReader) : Nat → List Bool × BitReader
  | 0 => ([], r)
  | n + 1 =>
    let (b, r1) := r.readBit
    let (bs, r2) := r1.readN n
    (b :: bs, r2)

/-! ## SymbolStats (rans.cpp) -/

/-- Raw histogram: occurrence count of each of the 256 symbols. -/
def histogram (data : List Nat) : List Nat :=
  (List.range 256).map (fun s => data.count s)

/-- Scaling step of SymbolStats::Count for one raw count: zero stays
zero, a positive count becomes floor(raw * PROB_SCALE / total), forced to
at least 1. -/
def scaleOne (total f : Nat) : Nat :=
  if 0 < f then
    let s := f * PROB_SCALE / total
    if s = 0 then 1 else s
  else 0

/-- The cyclic decrement loop of SymbolStats::Count: while the running
total exceeds PROB_SCALE, walk i over 0..255 cyclically and decrement any
entry above 1.  The loop is given explicit fuel; `adjLoop_spec` below
proves the fuel used by `countFreqs` always suffices, which is the
termination argument for the C++ while-loop. -/
def adjLoop : Nat → List Nat → Nat → Nat → List Nat
  | 0, fs, _, _ => fs
  | fuel + 1, fs, i, total =>
    if total ≤ PROB_SCALE then fs
    else if 1 < fs.getD i 0 then
      adjLoop fuel (fs.set i (fs.getD i 0 - 1)) ((i + 1) % 256) (total - 1)
    else
      adjLoop fuel fs ((i + 1) % 256) total

/-- SymbolStats::Count: histogram, scale to PROB_SCALE, then adjust the
sum to exactly PROB_SCALE (deficit added to entry 0, excess removed by
the cyclic decrement loop). -/
def countFreqs (data : List Nat) : List Nat :=
  let raw := histogram data
  if data.length = 0 then raw
  else
    let fs := raw.map (scaleOne data.length)
    let total := fs.sum
    if total < PROB_SCALE then fs.set 0 (fs.getD 0 0 + (PROB_SCALE - total))
    else if PROB_SCALE < total then adjLoop (256 * total) fs 0 total
    else fs

/-- Cumulative frequency table cum_freqs: entry i is the sum of the
first i frequencies, so it has length (length fs) + 1 and starts at 0. -/
def cumFreqs (fs : List Nat) : List Nat :=
  (List.range (fs.length + 1)).map (fun i => (fs.take i).sum)

/-! ## rANS encoder (rans.cpp, RansEncoderImpl) -/

/-- rANS encoder state: the 32-bit state and the output byte buffer. -/
structure EncState where
  state : Nat
  buffer : List Nat
deriving Repr, DecidableEq

/-- RansEncoderImpl::Init. -/
def ransEncInit : EncState := ⟨RANS_L, []⟩

/-- The renormalization loop of RansEncoderImpl::Encode: while
state ≥ (1 << (31 - PROB_BITS)) * freq, push the low byte and shift.
The threshold is uint32_t arithmetic, hence the % U32.  The `0 < t`
guard only rules out the diverging case `freq = 0` (for which the C++
loop never terminates); every claim below has freq ≥ 1.  The fuel makes
the recursion structural; since each pass divides the state by 256, the
fuel `state + 1` supplied by `ransEncode` strictly exceeds the number of
passes, so the loop always runs to completion. -/
def encRenorm (t : Nat) : Nat → List Nat → Nat → List Nat × Nat
  | 0, buf, x => (buf, x)
  | fuel + 1, buf, x =>
    if 0 < t ∧ t ≤ x then encRenorm t fuel (buf ++ [x % 256]) (x / 256)
    else (buf, x)

/-- RansEncoderImpl::Encode for one symbol against a static model. -/
def ransEncode (freqs cum : List Nat) (e : EncState) (s : Nat) : EncState :=
  let f := freqs.getD s 0
  let c := cum.getD s 0
  let t := (2 ^ (31 - PROB_BITS) * f) % U32
  let p := encRenorm t (e.state + 1) e.buffer e.state
  ⟨(p.2 / f * PROB_SCALE + p.2 % f + c) % U32, p.1⟩

/-- Encode a list of symbols left to right. -/
def ransEncodeList (freqs cum : List Nat) (e : EncState) (syms : List Nat) : EncState :=
  syms.foldl (ransEncode freqs cum) e

/-- RansEncoderImpl::Flush: append the four state bytes, low byte first. -/
def ransFlush (e : EncState) : List Nat :=
  e.buffer ++ [e.state % 256, e.state / 256 % 256,
               e.state / 65536 % 256, e.state / 16777216 % 256]

/-! ## rANS decoder (rans.cpp, RansDecoderImpl) -/

/-- rANS decoder state: the input buffer, 32-bit state, and the read
pointer, which starts at the end and moves down. -/
structure RansDec where
  data : List Nat
  state : Nat
  ptr : Nat
deriving Repr, DecidableEq

/-- RansDecoderImpl constructor: seed the state from the last four buffer
bytes (little-endian) when there are at least four. -/
def ransDecInit (d : List Nat) : RansDec :=
  if 4 ≤ d.length then
    ⟨d, d.getD (d.length - 4) 0 + 256 * d.getD (d.length - 3) 0
        + 65536 * d.getD (d.length - 2) 0 + 16777216 * d.getD (d.length - 1) 0,
     d.length - 4⟩
  else ⟨d, RANS_L, d.length⟩

/-- Symbol lookup in RansDecoderImpl::Decode: the first index whose
cumulative upper bound exceeds the slot; 0 when the scan falls through
(symbol is zero-initialized in the source).  `tail` is the cumulative
table from index 1 upward, walked in step with the index. -/
def findSymAux (slot : Nat) : List Nat → Nat → Nat
  | [], _ => 0
  | c :: rest, i => if slot < c then i else findSymAux slot rest (i + 1)

/-- The renormalization loop of RansDecoderImpl::Decode: while the state
is below RANS_L and bytes remain, pull one byte in (--ptr, then read).
Buffer entries are uint8_t (< 256), for which (state << 8) | byte is
state * 256 + byte.  Structural recursion on the pointer, which the loop
decrements by one each pass. -/
def decRenorm (d : List Nat) : Nat → Nat → Nat × Nat
  | x, 0 => (x, 0)
  | x, p + 1 =>
    if x < RANS_L then decRenorm d (x * 256 + d.getD p 0) p
    else (x, p + 1)

/-- RansDecoderImpl::Decode: slot from the low PROB_BITS bits, symbol by
scan, state update (uint32_t arithmetic: slot - start wraps mod 2^32),
then renormalize.  Returns the symbol and the new decoder state. -/
def ransDecodeStep (freqs cum : List Nat) (r : RansDec) : Nat × RansDec :=
  let slot := r.state % PROB_SCALE
  let s := findSymAux slot cum.tail 0
  let f := freqs.getD s 0
  let c := cum.getD s 0
  let x := (r.state / PROB_SCALE * f + slot + (U32 - c % U32)) % U32
  let p := decRenorm r.data x r.ptr
  (s, ⟨r.data, p.1, p.2⟩)

/-- Decode n symbols in the order the decoder produces them. -/
def ransDecodeN (freqs cum : List Nat) : Nat → RansDec → List Nat × RansDec
  | 0, r => ([], r)
  | n + 1, r =>
    let q := ransDecodeStep freqs cum r
    let rest := ransDecodeN freqs cum n q.2
    (q.1 :: rest.1, rest.2)

/-! ## LZ77 parser (compressor.cpp) -/

/-- The inner while-loop of FindLongestMatch: extend the common prefix of
data[i..] and data[pos..] while pos + len < limit and i + len < pos.
Structural fuel; each pass needs pos + len < limit, so the fuel
limit + 1 supplied below exceeds the number of passes and the loop
always runs to completion. -/
def matchLenFrom (data : List Nat) (i pos limit : Nat) : Nat → Nat → Nat
  | 0, len => len
  | fuel + 1, len =>
    if pos + len < limit ∧ i + len < pos ∧ data.getD (i + len) 0 = data.getD (pos + len) 0
    then matchLenFrom data i pos limit fuel (len + 1)
    else len

/-- The candidate scan of FindLongestMatch: walk i over
[start_search, pos), keeping the first-found longest (max_len, best_dist
= pos - i).  Structural fuel; each pass needs i < pos, so the fuel
pos + 1 supplied below exceeds the number of passes. -/
def flmGo (data : List Nat) (pos limit : Nat) : Nat → Nat → Nat → Nat → Nat × Nat
  | 0, _, maxLen, bestDist => (bestDist, maxLen)
  | fuel + 1, i, maxLen, bestDist =>
    if i < pos then
      if maxLen < matchLenFrom data i pos limit (limit + 1) 0 then
        flmGo data pos limit fuel (i + 1) (matchLenFrom data i pos limit (limit + 1) 0) (pos - i)
      else flmGo data pos limit fuel (i + 1) maxLen bestDist
    else (bestDist, maxLen)

/-- FindLongestMatch: best (distance, length) over the window, zeroed
when the best length is below 3.  limit caps lengths at 255, and
start_search = max(0, pos - window) is pos - window in Nat. -/
def findLongestMatch (data : List Nat) (pos window : Nat) : Nat × Nat :=
  let limit := min data.length (pos + 255)
  let p := flmGo data pos limit (pos + 1) (pos - window) 0 0
  if p.2 < 3 then (0, 0) else p

/-- One token of the LZ77 parse: a literal byte or a match record. -/
inductive Token where
  | lit (b : Nat)
  | mat (dist len : Nat)
deriving Repr, DecidableEq

/-- The parsing loop of Compress: at each position take a match of
length ≥ 3 when found, else a literal, until the input is consumed.
Structural fuel; every pass advances pos by at least one, so the fuel
data.length + 1 supplied by `parseTokens` exceeds the number of passes
and the loop always consumes the whole input. -/
def parseGo (data : List Nat) : Nat → Nat → List Token
  | 0, _ => []
  | fuel + 1, pos =>
    if pos < data.length then
      if 3 ≤ (findLongestMatch data pos 32768).2 then
        Token.mat (findLongestMatch data pos 32768).1 (findLongestMatch data pos 32768).2
          :: parseGo data fuel (pos + (findLongestMatch data pos 32768).2)
      else Token.lit (data.getD pos 0) :: parseGo data fuel (pos + 1)
    else []

/-- The LZ77 token stream of Compress for the given input. -/
def parseTokens (data : List Nat) : List Token :=
  parseGo data (data.length + 1) 0

/-- The literal bytes of a token stream, in order (Compress keeps them in
the vector `literals`). -/
def literalsOf (ts : List Token) : List Nat :=
  ts.filterMap (fun t => match t with | Token.lit b => some b | Token.mat _ _ => none)

/-- The match records of a token stream, in order (the vector `matches`). -/
def matchesOf (ts : List Token) : List (Nat × Nat) :=
  ts.filterMap (fun t => match t with | Token.lit _ => none | Token.mat d l => some (d, l))

/-- The per-token flags, true for a match (the vector `is_match`). -/
def flagsOf (ts : List Token) : List Bool :=
  ts.map (fun t => match t with | Token.lit _ => false | Token.mat _ _ => true)

/-! ## Container (compressor.cpp Compress / Decompress) -/

/-- A uint32_t value serialized little-endian, as Compress writes header
fields (out.write of the 4 bytes of the 32-bit value). -/
def u32le (n : Nat) : List Nat :=
  [n % 4294967296 % 256, n % 4294967296 / 256 % 256,
   n % 4294967296 / 65536 % 256, n % 4294967296 / 16777216 % 256]

/-- Read a little-endian uint32_t at offset o, as Decompress does. -/
def readU32 (a : List Nat) (o : Nat) : Nat :=
  a.getD o 0 + 256 * a.getD (o + 1) 0 + 65536 * a.getD (o + 2) 0
    + 16777216 * a.getD (o + 3) 0

/-- The three bytes of one packed match record: distance little-endian
16-bit, then length (Compress packing loop). -/
def packMatch (m : Nat × Nat) : List Nat :=
  [m.1 % 256, m.1 / 256 % 256, m.2 % 256]

/-- RansEncoder::GetModelData: 256 frequencies, each as two
little-endian bytes. -/
def modelBytes (freqs : List Nat) : List Nat :=
  (List.range 256).flatMap (fun i => [freqs.getD i 0 % 256, freqs.getD i 0 / 256 % 256])

/-- The rANS payload Compress produces for the given input: the model is
built from the whole input, the literals are encoded in reverse order,
then the state is flushed. -/
def ransBytesOf (data : List Nat) : List Nat :=
  ransFlush (ransEncodeList (countFreqs data) (cumFreqs (countFreqs data))
    ransEncInit (literalsOf (parseTokens data)).reverse)

/-- The flag payload: one bit per token, match = 1, flushed. -/
def flagBytesOf (data : List Nat) : List Nat :=
  ((BitWriter.init.writeAll (flagsOf (parseTokens data))).flush).buffer

/-- The match payload: three bytes per match record. -/
def matchBytesOf (data : List Nat) : List Nat :=
  (matchesOf (parseTokens data)).flatMap packMatch

/-- Compress, modeled on the bytes written to the output file: header of
six little-endian uint32_t fields, then the rans, flag, match and model
regions.  An empty input produces no output (the early return). -/
def compressBytes (data : List Nat) : List Nat :=
  if data = [] then []
  else
    u32le 0x4D49444F ++ u32le data.length ++ u32le (ransBytesOf data).length
      ++ u32le (flagBytesOf data).length ++ u32le (matchBytesOf data).length
      ++ u32le (modelBytes (countFreqs data)).length
      ++ ransBytesOf data ++ flagBytesOf data ++ matchBytesOf data
      ++ modelBytes (countFreqs data)

/-- How a Decompress run ends: ok covers both normal completion and
(vacuously) fuel exhaustion, which `emitLoop` never hits at the fuel
`decompressBytes` supplies. -/
inductive DecompStatus where
  | ok
  | badMagic
  | matchUnderflow
  | invalidDistance
deriving Repr, DecidableEq

/-- The forward byte-by-byte match copy of the Decompress emit loop:
len pushes of output[start + i], reading the growing output. -/
def copyBytes (out : List Nat) (start : Nat) : Nat → List Nat
  | 0 => out
  | n + 1 => copyBytes (out ++ [out.getD start 0]) (start + 1) n

/-- RansDecoderImpl::Init(model_data): rebuild the 256 frequencies from
the 512-byte model region.  (When the region is shorter than 512 bytes
the source leaves the table uninitialized and returns; no claim
exercises that case, and missing bytes read as 0 here.) -/
def modelFreqs (m : List Nat) : List Nat :=
  (List.range 256).map (fun i => m.getD (2 * i) 0 + 256 * m.getD (2 * i + 1) 0)

/-- The emit loop of Decompress: while the output is short of orig_size,
read a flag bit; 0 pulls a literal from the rANS decoder, 1 reads a
three-byte match record, failing on an exhausted match region or a
distance exceeding the output built so far.  Fuel only bounds the
recursion; one unit is spent per loop iteration. -/
def emitLoop (freqs cum matchData : List Nat) (origSize : Nat) :
    Nat → BitReader → RansDec → Nat → List Nat → List Nat × DecompStatus
  | 0, _, _, _, out => (out, DecompStatus.ok)
  | fuel + 1, br, rd, mp, out =>
    if out.length < origSize then
      let q := br.readBit
      if q.1 then
        if matchData.length < mp + 3 then (out, DecompStatus.matchUnderflow)
        else
          let dist := matchData.getD mp 0 + 256 * matchData.getD (mp + 1) 0
          let len := matchData.getD (mp + 2) 0
          if out.length < dist then (out, DecompStatus.invalidDistance)
          else emitLoop freqs cum matchData origSize fuel q.2 rd (mp + 3)
                 (copyBytes out (out.length - dist) len)
      else
        let p := ransDecodeStep freqs cum rd
        emitLoop freqs cum matchData origSize fuel q.2 p.2 mp (out ++ [p.1])
    else (out, DecompStatus.ok)

/-- Decompress, modeled on the artifact bytes: validate the magic, read
the five sizes, slice the four regions, rebuild the model, and run the
emit loop.  The returned list is what Decompress writes to the output
file — on a mid-stream error the partial output accumulated so far (on a
bad magic nothing is written at all). -/
def decompressBytes (a : List Nat) : List Nat × DecompStatus :=
  if readU32 a 0 ≠ 0x4D49444F then ([], DecompStatus.badMagic)
  else
    let origSize := readU32 a 4
    let ransSize := readU32 a 8
    let flagsSize := readU32 a 12
    let matchSize := readU32 a 16
    let modelSize := readU32 a 20
    let body := a.drop 24
    let ransData := body.take ransSize
    let flagsData := (body.drop ransSize).take flagsSize
    let matchData := ((body.drop ransSize).drop flagsSize).take matchSize
    let modelData := (((body.drop ransSize).drop flagsSize).drop matchSize).take modelSize
    let freqs := modelFreqs modelData
    emitLoop freqs (cumFreqs freqs) matchData origSize
      (8 * flagsData.length + origSize + 1) (BitReader.init flagsData)
      (ransDecInit ransData) 0 []

/-! ## List helper lemmas -/

/-- Setting an in-range entry changes the sum by the difference of the
new and old values. -/
theorem sum_set_add (l : List Nat) (i a : Nat) (hi : i < l.length) :
    (l.set i a).sum + l.getD i 0 = l.sum + a := by
  induction l generalizing i with
  | nil => simp at hi
  | cons x xs ih =>
    cases i with
    | zero => simp [List.set, List.getD]; omega
    | succ j =>
      simp only [List.set, List.sum_cons, List.getD_cons_succ]
      have := ih j (by simpa using hi)
      omega

/-- getD after set at the same in-range index. -/
theorem getD_set_self (l : List Nat) (i a : Nat) (hi : i < l.length) :
    (l.set i a).getD i 0 = a := by
  induction l generalizing i with
  | nil => simp at hi
  | cons x xs ih =>
    cases i with
    | zero => simp
    | succ j => simpa using ih j (by simpa using hi)

/-- getD after set at a different index. -/
theorem getD_set_ne (l : List Nat) (i j a : Nat) (hij : i ≠ j) :
    (l.set i a).getD j 0 = l.getD j 0 := by
  induction l generalizing i j with
  | nil => simp
  | cons x xs ih =>
    cases i with
    | zero => cases j with
      | zero => omega
      | succ m => simp
    | succ n => cases j with
      | zero => simp
      | succ m => simpa using ih n m (by omega)

/-- A list of naturals all at most 1 sums to at most its length. -/
theorem sum_le_length_of_le_one (l : List Nat) (h : ∀ x ∈ l, x ≤ 1) :
    l.sum ≤ l.length := by
  induction l with
  | nil => simp
  | cons x xs ih =>
    have hx := h x (by simp)
    have := ih (fun y hy => h y (by simp [hy]))
    simp only [List.sum_cons, List.length_cons]
    omega

/-- In a 256-entry table summing above PROB_SCALE some entry exceeds 1. -/
theorem exists_entry_gt_one (l : List Nat) (hlen : l.length = 256)
    (hsum : PROB_SCALE < l.sum) : ∃ j, j < 256 ∧ 1 < l.getD j 0 := by
  by_contra hno
  push_neg at hno
  have hall : ∀ x ∈ l, x ≤ 1 := by
    intro x hx
    obtain ⟨i, hi, rfl⟩ := List.mem_iff_getElem.mp hx
    have h1 := hno i (by omega)
    rwa [List.getD_eq_getElem l 0 hi] at h1
  have := sum_le_length_of_le_one l hall
  simp [PROB_SCALE] at hsum
  omega

/-! ## C3: SymbolStats::Count normalizes to PROB_SCALE -/

/-- The decrement loop exits immediately once the total is within scale. -/
theorem adjLoop_of_le (fuel : Nat) (fs : List Nat) (i total : Nat)
    (h : total ≤ PROB_SCALE) : adjLoop fuel fs i total = fs := by
  cases fuel with
  | zero => rfl
  | succ n => simp [adjLoop, h]

/-- Main invariant of the cyclic decrement loop: with a decrementable
entry k cyclic steps ahead and fuel at least 256 per unit of excess, the
loop drives the sum to exactly PROB_SCALE, preserves the length, and
never drives a positive entry to zero.  This also shows the C++ while
loop terminates: the fuel bound is met and the result no longer exceeds
the scale. -/
theorem adjLoop_spec (fuel : Nat) : ∀ (fs : List Nat) (i total k : Nat),
    fs.length = 256 → fs.sum = total → PROB_SCALE < total → i < 256 → k < 256 →
    1 < fs.getD ((i + k) % 256) 0 → 256 * (total - 4097) + k + 1 ≤ fuel →
    (adjLoop fuel fs i total).sum = PROB_SCALE
    ∧ (adjLoop fuel fs i total).length = 256
    ∧ ∀ m, 1 ≤ fs.getD m 0 → 1 ≤ (adjLoop fuel fs i total).getD m 0 := by
  have hPS : PROB_SCALE = 4096 := rfl
  induction fuel with
  | zero =>
    intro fs i total k hlen hsum htot hi hk hgt hfuel
    omega
  | succ fuel ih =>
    intro fs i total k hlen hsum htot hi hk hgt hfuel
    simp only [adjLoop]
    rw [if_neg (by omega)]
    by_cases hdec : 1 < fs.getD i 0
    · rw [if_pos hdec]
      have hset := sum_set_add fs i (fs.getD i 0 - 1) (by omega)
      have hsetlen : (fs.set i (fs.getD i 0 - 1)).length = 256 := by
        rw [List.length_set]; exact hlen
      have hpres : ∀ m, 1 ≤ fs.getD m 0 → 1 ≤ (fs.set i (fs.getD i 0 - 1)).getD m 0 := by
        intro m hm
        by_cases hmi : i = m
        · subst hmi; rw [getD_set_self fs i _ (by omega)]; omega
        · rw [getD_set_ne fs i m _ hmi]; exact hm
      by_cases hdone : total - 1 ≤ PROB_SCALE
      · rw [adjLoop_of_le fuel _ _ _ hdone]
        exact ⟨by omega, hsetlen, hpres⟩
      · obtain ⟨j, hj, hjgt⟩ := exists_entry_gt_one _ hsetlen (by omega)
        have hi1 : (i + 1) % 256 < 256 := Nat.mod_lt _ (by omega)
        have hkk : (j + 256 - (i + 1) % 256) % 256 < 256 := Nat.mod_lt _ (by omega)
        have hk1 : ((i + 1) % 256 + (j + 256 - (i + 1) % 256) % 256) % 256 = j := by
          omega
        have hrec := ih _ ((i + 1) % 256) (total - 1) _ hsetlen (by omega) (by omega)
          hi1 hkk (by rw [hk1]; exact hjgt) (by omega)
        exact ⟨hrec.1, hrec.2.1, fun m hm => hrec.2.2 m (hpres m hm)⟩
    · rw [if_neg hdec]
      have hkpos : 0 < k := by
        by_contra h0
        have hk0 : k = 0 := by omega
        subst hk0
        rw [Nat.add_zero, Nat.mod_eq_of_lt hi] at hgt
        omega
      have hk1 : ((i + 1) % 256 + (k - 1)) % 256 = (i + k) % 256 := by omega
      exact ih fs ((i + 1) % 256) total (k - 1) hlen hsum htot
        (Nat.mod_lt _ (by omega)) (by omega) (by rw [hk1]; exact hgt) (by omega)

/-- The histogram always has 256 entries. -/
theorem histogram_length (data : List Nat) : (histogram data).length = 256 := by
  simp [histogram]

/-- The histogram entry of an in-range symbol is its occurrence count. -/
theorem histogram_getD (data : List Nat) (b : Nat) (hb : b < 256) :
    (histogram data).getD b 0 = data.count b := by
  rw [List.getD_eq_getElem _ 0 (by simp [histogram_length, hb])]
  simp [histogram]

/-- countFreqs always yields a 256-entry table. -/
theorem countFreqs_length (data : List Nat) : (countFreqs data).length = 256 := by
  rw [countFreqs]
  by_cases h0 : data.length = 0
  · simp [h0, histogram_length]
  · simp only [h0, if_false]
    set fs := (histogram data).map (scaleOne data.length) with hfs
    have hfslen : fs.length = 256 := by simp [hfs, histogram_length]
    by_cases hlt : fs.sum < PROB_SCALE
    · simp [hlt, hfslen]
    · by_cases hgt : PROB_SCALE < fs.sum
      · simp only [hlt, if_false, hgt, if_true]
        obtain ⟨j, hj, hjgt⟩ := exists_entry_gt_one fs hfslen hgt
        have := adjLoop_spec (256 * fs.sum) fs 0 fs.sum j hfslen rfl hgt (by omega) hj
          (by rw [Nat.zero_add, Nat.mod_eq_of_lt hj]; exact hjgt)
          (by simp [PROB_SCALE] at hgt ⊢; omega)
        exact this.2.1
      · simp [hlt, hgt, hfslen]

/-- For nonempty input the adjusted table sums to PROB_SCALE, and any
entry of the scaled table that was at least 1 stays at least 1. -/
theorem countFreqs_cases (data : List Nat) (h0 : data.length ≠ 0) :
    (countFreqs data).sum = PROB_SCALE
    ∧ ∀ m, 1 ≤ ((histogram data).map (scaleOne data.length)).getD m 0 →
        1 ≤ (countFreqs data).getD m 0 := by
  have hPS : PROB_SCALE = 4096 := rfl
  have hfslen : ((histogram data).map (scaleOne data.length)).length = 256 := by
    rw [List.length_map]; exact histogram_length data
  simp only [countFreqs, if_neg h0]
  set fs := (histogram data).map (scaleOne data.length) with hfsdef
  by_cases hlt : fs.sum < PROB_SCALE
  · rw [if_pos hlt]
    have hset := sum_set_add fs 0 (fs.getD 0 0 + (PROB_SCALE - fs.sum)) (by omega)
    refine ⟨by omega, ?_⟩
    intro m hm
    by_cases hm0 : (0 : Nat) = m
    · rw [← hm0] at hm ⊢
      rw [getD_set_self fs 0 _ (by omega)]
      omega
    · rw [getD_set_ne fs 0 m _ hm0]
      exact hm
  · rw [if_neg hlt]
    by_cases hgt : PROB_SCALE < fs.sum
    · rw [if_pos hgt]
      obtain ⟨j, hj, hjgt⟩ := exists_entry_gt_one fs hfslen hgt
      have hspec := adjLoop_spec (256 * fs.sum) fs 0 fs.sum j hfslen rfl hgt
        (by omega) hj (by rw [Nat.zero_add, Nat.mod_eq_of_lt hj]; exact hjgt)
        (by omega)
      exact ⟨hspec.1, fun m hm => hspec.2.2 m hm⟩
    · rw [if_neg hgt]
      exact ⟨by omega, fun m hm => hm⟩

/-- C3: for every non-empty input of bytes, after SymbolStats::Count the
256 frequencies sum to exactly 4096 (PROB_SCALE), every symbol occurring
in the input keeps a frequency of at least 1, and the cumulative table
ends at cum[256] = PROB_SCALE.  The sum result also certifies that the
cyclic decrement loop used when the provisional total exceeds 4096
terminates: `adjLoop_spec` shows its fuel is never exhausted. -/
theorem count_normalizes_to_prob_scale (data : List Nat) (hne : data ≠ [])
    (hbytes : ∀ b ∈ data, b < 256) :
    (countFreqs data).sum = PROB_SCALE
    ∧ (countFreqs data).length = 256
    ∧ (∀ b ∈ data, 1 ≤ (countFreqs data).getD b 0)
    ∧ (cumFreqs (countFreqs data)).getD 256 0 = PROB_SCALE := by
  have h0 : data.length ≠ 0 := fun h => hne (List.length_eq_zero.mp h)
  have hcore := countFreqs_cases data h0
  have hlen := countFreqs_length data
  refine ⟨hcore.1, hlen, ?_, ?_⟩
  · intro b hb
    apply hcore.2
    have hb256 := hbytes b hb
    have hmap : ((histogram data).map (scaleOne data.length)).getD b 0
        = scaleOne data.length (data.count b) := by
      rw [List.getD_eq_getElem _ 0 (by rw [List.length_map, histogram_length]; omega)]
      rw [List.getElem_map]
      congr 1
      rw [← histogram_getD data b hb256,
        List.getD_eq_getElem _ 0 (by rw [histogram_length]; omega)]
    rw [hmap]
    have hc : 0 < data.count b := List.count_pos_iff.mpr hb
    unfold scaleOne
    rw [if_pos hc]
    by_cases hs : data.count b * PROB_SCALE / data.length = 0
    · rw [if_pos hs]
    · rw [if_neg hs]
      exact Nat.one_le_iff_ne_zero.mpr hs
  · rw [cumFreqs, List.getD_eq_getElem _ 0 (by simp [hlen])]
    simp only [List.getElem_map, List.getElem_range]
    rw [List.take_of_length_le (by omega)]
    exact hcore.1

/-! ## C4: rANS state invariants -/

/-- Any entry of a list of naturals is at most the sum. -/
theorem getD_le_sum (l : List Nat) (i : Nat) : l.getD i 0 ≤ l.sum := by
  induction l generalizing i with
  | nil => simp
  | cons x xs ih =>
    cases i with
    | zero => simp
    | succ j =>
      have := ih j
      simp only [List.getD_cons_succ, List.sum_cons]
      omega

/-- A prefix sums to at most the whole list. -/
theorem take_sum_le (l : List Nat) (n : Nat) : (l.take n).sum ≤ l.sum := by
  induction l generalizing n with
  | nil => simp
  | cons x xs ih =>
    cases n with
    | zero => simp
    | succ m =>
      have := ih m
      simp only [List.take_succ_cons, List.sum_cons]
      omega

/-- Extending a prefix by one in-range element adds that element. -/
theorem take_succ_sum (l : List Nat) (n : Nat) (h : n < l.length) :
    (l.take (n + 1)).sum = (l.take n).sum + l.getD n 0 := by
  induction l generalizing n with
  | nil => simp at h
  | cons x xs ih =>
    cases n with
    | zero => simp
    | succ m =>
      have := ih m (by simpa using h)
      simp only [List.take_succ_cons, List.sum_cons, List.getD_cons_succ]
      omega

/-- The cumulative table entry at an index within range is the prefix
sum of the frequencies below it. -/
theorem cumFreqs_getD (fs : List Nat) (s : Nat) (h : s ≤ fs.length) :
    (cumFreqs fs).getD s 0 = (fs.take s).sum := by
  rw [cumFreqs, List.getD_eq_getElem _ 0 (by simp; omega)]
  simp

/-- Behaviour of the encoder renormalization loop under adequate fuel:
the final state is below the threshold, and it is either untouched or at
least threshold / 256 (one byte was shifted out of a state that was at
least the threshold). -/
theorem encRenorm_spec (t : Nat) (ht : 0 < t) : ∀ (fuel : Nat) (buf : List Nat) (x : Nat),
    x < fuel →
    (encRenorm t fuel buf x).2 < t
    ∧ ((encRenorm t fuel buf x).2 = x ∨ t / 256 ≤ (encRenorm t fuel buf x).2) := by
  intro fuel
  induction fuel with
  | zero => intro buf x hx; omega
  | succ fuel ih =>
    intro buf x hx
    simp only [encRenorm]
    by_cases hc : 0 < t ∧ t ≤ x
    · rw [if_pos hc]
      have hxpos : 0 < x := by omega
      have hdivlt : x / 256 < x := Nat.div_lt_self hxpos (by omega)
      have hrec := ih (buf ++ [x % 256]) (x / 256) (by omega)
      refine ⟨hrec.1, Or.inr ?_⟩
      rcases hrec.2 with heq | hge
      · rw [heq]
        exact Nat.div_le_div_right hc.2
      · exact hge
    · rw [if_neg hc]
      exact ⟨by omega, Or.inl rfl⟩

/-- Behaviour of the decoder renormalization loop: the pointer never
increases, and when it stays positive the state ends at or above
RANS_L. -/
theorem decRenorm_spec (d : List Nat) : ∀ (p x : Nat),
    (decRenorm d x p).2 ≤ p
    ∧ (0 < (decRenorm d x p).2 → RANS_L ≤ (decRenorm d x p).1) := by
  intro p
  induction p with
  | zero =>
    intro x
    simp only [decRenorm]
    omega
  | succ p ih =>
    intro x
    simp only [decRenorm]
    by_cases hc : x < RANS_L
    · rw [if_pos hc]
      have := ih (x * 256 + d.getD p 0)
      exact ⟨by omega, this.2⟩
    · rw [if_neg hc]
      exact ⟨Nat.le_refl _, fun _ => by omega⟩

/-- C4: for a symbol with model frequency at least 1 under a valid model
(256 frequencies summing to PROB_SCALE), a successful Encode from a
state in [RANS_L, 2^32) lands back in [RANS_L, 2^32); and in any Decode
the read pointer never increases while the state is at least RANS_L
again whenever bytes remain to be read (more symbols available). -/
theorem rans_state_invariants (freqs : List Nat) (hlen : freqs.length = 256)
    (hsum : freqs.sum = PROB_SCALE) (s : Nat) (hs : s < 256)
    (hf : 1 ≤ freqs.getD s 0) (e : EncState) (hx : RANS_L ≤ e.state)
    (hx2 : e.state < U32) (dec : RansDec) :
    (RANS_L ≤ (ransEncode freqs (cumFreqs freqs) e s).state
      ∧ (ransEncode freqs (cumFreqs freqs) e s).state < U32)
    ∧ ((ransDecodeStep freqs (cumFreqs freqs) dec).2.ptr ≤ dec.ptr
      ∧ (0 < (ransDecodeStep freqs (cumFreqs freqs) dec).2.ptr →
          RANS_L ≤ (ransDecodeStep freqs (cumFreqs freqs) dec).2.state)) := by
  have hPS : PROB_SCALE = 4096 := rfl
  have hL : RANS_L = 65536 := rfl
  have hU : U32 = 4294967296 := rfl
  constructor
  · -- encoder part
    have hfle : freqs.getD s 0 ≤ 4096 := by
      have := getD_le_sum freqs s
      omega
    have hcf : (cumFreqs freqs).getD s 0 + freqs.getD s 0 ≤ 4096 := by
      rw [cumFreqs_getD freqs s (by omega)]
      have h1 := take_succ_sum freqs s (by omega)
      have h2 := take_sum_le freqs (s + 1)
      omega
    simp only [ransEncode]
    have ht : (2 ^ (31 - PROB_BITS) * freqs.getD s 0) % U32
        = 524288 * freqs.getD s 0 := by
      have : (2 : Nat) ^ (31 - PROB_BITS) = 524288 := by norm_num [PROB_BITS]
      rw [this, Nat.mod_eq_of_lt (by omega)]
    rw [ht]
    have htpos : 0 < 524288 * freqs.getD s 0 := by positivity
    have hren := encRenorm_spec (524288 * freqs.getD s 0) htpos (e.state + 1)
      e.buffer e.state (by omega)
    set X := (encRenorm (524288 * freqs.getD s 0) (e.state + 1) e.buffer e.state).2 with hXdef
    have hXup : X < 524288 * freqs.getD s 0 := hren.1
    have hXlo : 16 * freqs.getD s 0 ≤ X := by
      rcases hren.2 with heq | hge
      · omega
      · have : 524288 * freqs.getD s 0 / 256 = 2048 * freqs.getD s 0 := by
          omega
        omega
    have hfpos : 0 < freqs.getD s 0 := hf
    have hD1 : 16 ≤ X / freqs.getD s 0 :=
      (Nat.le_div_iff_mul_le hfpos).mpr (by omega)
    have hD2 : X / freqs.getD s 0 < 524288 :=
      (Nat.div_lt_iff_lt_mul hfpos).mpr (by omega)
    have hM : X % freqs.getD s 0 < freqs.getD s 0 := Nat.mod_lt _ hfpos
    have hval : X / freqs.getD s 0 * PROB_SCALE + X % freqs.getD s 0
        + (cumFreqs freqs).getD s 0 < U32 := by
      have : X / freqs.getD s 0 * PROB_SCALE ≤ 524287 * 4096 := by
        rw [hPS]
        exact Nat.mul_le_mul_right 4096 (by omega)
      omega
    rw [Nat.mod_eq_of_lt hval]
    constructor
    · have : 16 * PROB_SCALE ≤ X / freqs.getD s 0 * PROB_SCALE :=
        Nat.mul_le_mul_right PROB_SCALE hD1
      omega
    · exact hval
  · -- decoder part
    simp only [ransDecodeStep]
    exact ⟨(decRenorm_spec dec.data dec.ptr _).1, (decRenorm_spec dec.data dec.ptr _).2⟩

set_option maxRecDepth 1000000 in
/-- Witness for C4: the invariants instantiated at the model of the
two-byte input AB, symbol A, the fresh encoder state, and a decoder over
an arbitrary five-byte buffer. -/
theorem rans_state_invariants_witness :
    (RANS_L ≤ (ransEncode (countFreqs [65, 66]) (cumFreqs (countFreqs [65, 66]))
        ransEncInit 65).state
      ∧ (ransEncode (countFreqs [65, 66]) (cumFreqs (countFreqs [65, 66]))
          ransEncInit 65).state < U32)
    ∧ ((ransDecodeStep (countFreqs [65, 66]) (cumFreqs (countFreqs [65, 66]))
          (ransDecInit [1, 2, 3, 4, 5])).2.ptr ≤ (ransDecInit [1, 2, 3, 4, 5]).ptr
      ∧ (0 < (ransDecodeStep (countFreqs [65, 66]) (cumFreqs (countFreqs [65, 66]))
            (ransDecInit [1, 2, 3, 4, 5])).2.ptr →
          RANS_L ≤ (ransDecodeStep (countFreqs [65, 66]) (cumFreqs (countFreqs [65, 66]))
            (ransDecInit [1, 2, 3, 4, 5])).2.state)) :=
  rans_state_invariants (countFreqs [65, 66]) (by decide) (by decide) 65 (by decide)
    (by decide) ransEncInit (by decide) (by decide) (ransDecInit [1, 2, 3, 4, 5])

/-! ## C6: LZ77 match token invariants -/

/-- The prefix-extension loop never runs the source past the current
position: it extends only while i + len < pos. -/
theorem matchLenFrom_le_gap (data : List Nat) (i pos limit : Nat) :
    ∀ (fuel len : Nat), i + len ≤ pos →
      i + matchLenFrom data i pos limit fuel len ≤ pos := by
  intro fuel
  induction fuel with
  | zero => intro len h; exact h
  | succ fuel ih =>
    intro len h
    simp only [matchLenFrom]
    by_cases hc : pos + len < limit ∧ i + len < pos
        ∧ data.getD (i + len) 0 = data.getD (pos + len) 0
    · rw [if_pos hc]
      exact ih (len + 1) (by omega)
    · rw [if_neg hc]
      exact h

/-- The prefix-extension loop never runs the match past the limit: it
extends only while pos + len < limit. -/
theorem matchLenFrom_le_limit (data : List Nat) (i pos limit : Nat) :
    ∀ (fuel len : Nat), pos + len ≤ limit →
      pos + matchLenFrom data i pos limit fuel len ≤ limit := by
  intro fuel
  induction fuel with
  | zero => intro len h; exact h
  | succ fuel ih =>
    intro len h
    simp only [matchLenFrom]
    by_cases hc : pos + len < limit ∧ i + len < pos
        ∧ data.getD (i + len) 0 = data.getD (pos + len) 0
    · rw [if_pos hc]
      exact ih (len + 1) (by omega)
    · rw [if_neg hc]
      exact h

/-- Invariant of the candidate scan: the running best pair is either the
initial (0, 0) or a genuine candidate, meaning length at least 1, length
at most the distance, distance within the searched range, and the match
end within the limit; the invariant carries to the result. -/
theorem flmGo_spec (data : List Nat) (pos limit : Nat) (hpl : pos ≤ limit) (lo : Nat) :
    ∀ (fuel i maxLen bestDist : Nat), lo ≤ i →
      ((maxLen = 0 ∧ bestDist = 0) ∨
        (1 ≤ maxLen ∧ maxLen ≤ bestDist ∧ bestDist ≤ pos - lo ∧ pos + maxLen ≤ limit)) →
      (((flmGo data pos limit fuel i maxLen bestDist).2 = 0
          ∧ (flmGo data pos limit fuel i maxLen bestDist).1 = 0) ∨
        (1 ≤ (flmGo data pos limit fuel i maxLen bestDist).2
          ∧ (flmGo data pos limit fuel i maxLen bestDist).2
            ≤ (flmGo data pos limit fuel i maxLen bestDist).1
          ∧ (flmGo data pos limit fuel i maxLen bestDist).1 ≤ pos - lo
          ∧ pos + (flmGo data pos limit fuel i maxLen bestDist).2 ≤ limit)) := by
  intro fuel
  induction fuel with
  | zero =>
    intro i maxLen bestDist hlo hinv
    simpa [flmGo] using hinv
  | succ fuel ih =>
    intro i maxLen bestDist hlo hinv
    simp only [flmGo]
    by_cases hi : i < pos
    · rw [if_pos hi]
      by_cases hbetter : maxLen < matchLenFrom data i pos limit (limit + 1) 0
      · rw [if_pos hbetter]
        apply ih (i + 1) _ _ (by omega)
        right
        have hgap := matchLenFrom_le_gap data i pos limit (limit + 1) 0 (by omega)
        have hlim := matchLenFrom_le_limit data i pos limit (limit + 1) 0 (by omega)
        refine ⟨by omega, by omega, by omega, by omega⟩
      · rw [if_neg hbetter]
        exact ih (i + 1) maxLen bestDist (by omega) hinv
    · rw [if_neg hi]
      simpa using hinv

/-- The facts FindLongestMatch guarantees about any match it reports
with length at least 3: positive distance within both the window and the
already-consumed prefix, length at most the distance (no self-overlap),
at most 255, and not running past the end of the input. -/
theorem findLongestMatch_spec (data : List Nat) (pos w : Nat)
    (hpos : pos < data.length)
    (hm : 3 ≤ (findLongestMatch data pos w).2) :
    1 ≤ (findLongestMatch data pos w).1
    ∧ (findLongestMatch data pos w).1 ≤ w
    ∧ (findLongestMatch data pos w).1 ≤ pos
    ∧ (findLongestMatch data pos w).2 ≤ (findLongestMatch data pos w).1
    ∧ (findLongestMatch data pos w).2 ≤ 255
    ∧ pos + (findLongestMatch data pos w).2 ≤ data.length := by
  have hpl : pos ≤ min data.length (pos + 255) := by omega
  have hspec := flmGo_spec data pos (min data.length (pos + 255)) hpl (pos - w)
    (pos + 1) (pos - w) 0 0 (Nat.le_refl _) (Or.inl ⟨rfl, rfl⟩)
  revert hm
  simp only [findLongestMatch]
  by_cases hlt : (flmGo data pos (min data.length (pos + 255)) (pos + 1) (pos - w) 0 0).2 < 3
  · rw [if_pos hlt]
    intro hm
    omega
  · rw [if_neg hlt]
    intro hm
    rcases hspec with ⟨h2, _⟩ | ⟨h1, h2, h3, h4⟩
    · omega
    · omega

/-- Well-formedness of a token stream starting at a given consumed-byte
count: every match token (dist, len) it contains satisfies
1 ≤ dist ≤ 32768, dist at most the bytes consumed before it, 3 ≤ len ≤
255, and len ≤ dist; positions advance by 1 per literal and len per
match. -/
inductive TokenBounds : Nat → List Token → Prop where
  | nil : ∀ pos, TokenBounds pos []
  | lit : ∀ pos b ts, TokenBounds (pos + 1) ts → TokenBounds pos (Token.lit b :: ts)
  | mat : ∀ pos d l ts, 1 ≤ d → d ≤ 32768 → d ≤ pos → 3 ≤ l → l ≤ 255 → l ≤ d →
      TokenBounds (pos + l) ts → TokenBounds pos (Token.mat d l :: ts)

/-- The parse loop satisfies the token bounds from any starting
position. -/
theorem parseGo_bounds (data : List Nat) :
    ∀ (fuel pos : Nat), TokenBounds pos (parseGo data fuel pos) := by
  intro fuel
  induction fuel with
  | zero => intro pos; exact TokenBounds.nil pos
  | succ fuel ih =>
    intro pos
    simp only [parseGo]
    by_cases hp : pos < data.length
    · rw [if_pos hp]
      by_cases hm : 3 ≤ (findLongestMatch data pos 32768).2
      · rw [if_pos hm]
        have hspec := findLongestMatch_spec data pos 32768 hp hm
        exact TokenBounds.mat pos _ _ _ hspec.1 (by omega) (by omega) hm (by omega)
          (by omega) (ih (pos + (findLongestMatch data pos 32768).2))
      · rw [if_neg hm]
        exact TokenBounds.lit pos _ _ (ih (pos + 1))
    · rw [if_neg hp]
      exact TokenBounds.nil pos

/-- C6: for every input, every match token (dist, len) the LZ77 parser
emits satisfies 1 ≤ dist ≤ 32768, 3 ≤ len ≤ 255, dist at most the input
bytes consumed before the match position, and len ≤ dist (the matched
source lies entirely before the current position: no self-overlap).
The parse starts with zero bytes consumed. -/
theorem parse_match_invariants (data : List Nat) :
    TokenBounds 0 (parseTokens data) :=
  parseGo_bounds data (data.length + 1) 0

/-! ## C7: BitWriter / BitReader round-trip and MSB-first packing

`pbyteFrom` and `packBitsMSB` are spec-side definitions, written from the
specification's words (§4.1, property 3): bits are packed MSB-first, bit
j of a chunk occupying bit 7 - j of its byte, with the final byte
zero-padded in its low-order bits.  The refinement theorems below
compare the BitWriter/BitReader code with them. -/

/-- Value of a bit list placed MSB-first from bit position k downward:
bit j of the list contributes 2^(k - j) when set.  Unfilled positions
(the zero padding) contribute nothing. -/
def pbyteFrom : Nat → List Bool → Nat
  | _, [] => 0
  | k, b :: rest => (if b then 2 ^ k else 0) + pbyteFrom (k - 1) rest

/-- Chunk a bit sequence into bytes of 8 bits, MSB-first, the final
partial chunk zero-padded low.  Structural fuel, one unit per chunk. -/
def packChunks : Nat → List Bool → List Nat
  | 0, _ => []
  | _ + 1, [] => []
  | fuel + 1, b :: rest =>
    pbyteFrom 7 ((b :: rest).take 8) :: packChunks fuel ((b :: rest).drop 8)

/-- The spec's byte packing of a bit sequence. -/
def packBitsMSB (bits : List Bool) : List Nat := packChunks (bits.length + 1) bits

/-- A bit list of length at most k + 1 packs below 2^(k + 1). -/
theorem pbyteFrom_lt (p : List Bool) : ∀ (k : Nat), p.length ≤ k + 1 →
    pbyteFrom k p < 2 ^ (k + 1) := by
  induction p with
  | nil =>
    intro k _
    simp only [pbyteFrom]
    positivity
  | cons b rest ih =>
    intro k hk
    cases k with
    | zero =>
      have hr : rest = [] := by
        cases rest with
        | nil => rfl
        | cons x xs => simp at hk
      subst hr
      cases b <;> simp [pbyteFrom]
    | succ k =>
      have hrest := ih k (by simpa using hk)
      have hpow : (2 : Nat) ^ (k + 1 + 1) = 2 ^ (k + 1) + 2 ^ (k + 1) := by ring
      simp only [pbyteFrom, Nat.add_sub_cancel]
      cases b
      · rw [if_neg (by decide)]
        omega
      · rw [if_pos rfl]
        omega

/-- A packed bit list of length n is a multiple of 2^(k + 1 - n): only
positions k down to k + 1 - n can be set. -/
theorem pbyteFrom_dvd (p : List Bool) : ∀ (k : Nat), p.length ≤ k + 1 →
    2 ^ (k + 1 - p.length) ∣ pbyteFrom k p := by
  induction p with
  | nil =>
    intro k _
    simp [pbyteFrom]
  | cons b rest ih =>
    intro k hk
    have hrl : rest.length ≤ k := by simpa using hk
    simp only [pbyteFrom, List.length_cons]
    apply Nat.dvd_add
    · cases b
      · simp
      · simp only [if_true]
        exact Nat.pow_dvd_pow 2 (by omega)
    · cases rest with
      | nil => simp [pbyteFrom]
      | cons x xs =>
        have hxl : (x :: xs).length ≤ k - 1 + 1 := by
          simp at hrl ⊢
          omega
        have hdvd := ih (k - 1) hxl
        have hexp : k + 1 - (x :: xs).length - 1 ≤ k - 1 + 1 - (x :: xs).length := by
          simp at hrl ⊢
          omega
        exact dvd_trans (Nat.pow_dvd_pow 2 (by omega)) hdvd

/-- Bitwise or with 2^m adds 2^m to any multiple of 2^(m + 1): the low
m + 1 bits of such a number are clear. -/
theorem lor_pow_of_dvd (c m : Nat) :
    (2 ^ (m + 1) * c) ||| 2 ^ m = 2 ^ (m + 1) * c + 2 ^ m := by
  apply Nat.eq_of_testBit_eq
  intro i
  rw [Nat.testBit_lor, Nat.testBit_two_pow]
  rcases Nat.lt_trichotomy i m with hlt | heq | hgt
  · obtain ⟨d, rfl⟩ : ∃ d, m = i + (d + 1) := ⟨m - i - 1, by omega⟩
    rw [Nat.testBit_to_div_mod, Nat.testBit_to_div_mod]
    have h1 : 2 ^ (i + (d + 1) + 1) * c = 2 ^ i * (2 ^ (d + 2) * c) := by ring
    have h2 : (2 : Nat) ^ (i + (d + 1)) = 2 ^ i * 2 ^ (d + 1) := by ring
    rw [h1, h2, Nat.mul_div_cancel_left _ (by positivity), ← Nat.mul_add,
      Nat.mul_div_cancel_left _ (by positivity)]
    have e1 : 2 ^ (d + 2) * c % 2 = 0 := by
      have h3 : 2 ^ (d + 2) * c = 2 * (2 ^ (d + 1) * c) := by ring
      omega
    have e2 : (2 ^ (d + 2) * c + 2 ^ (d + 1)) % 2 = 0 := by
      have h3 : 2 ^ (d + 2) * c = 2 * (2 ^ (d + 1) * c) := by ring
      have h4 : (2 : Nat) ^ (d + 1) = 2 * 2 ^ d := by ring
      omega
    have hne : i + (d + 1) ≠ i := by omega
    simp [e1, e2, hne]
  · subst heq
    rw [Nat.testBit_to_div_mod, Nat.testBit_to_div_mod]
    have h1 : 2 ^ (i + 1) * c = 2 ^ i * (2 * c) := by ring
    have h2 : 2 ^ (i + 1) * c + 2 ^ i = 2 ^ i * (2 * c + 1) := by ring
    rw [h2, h1, Nat.mul_div_cancel_left _ (by positivity),
      Nat.mul_div_cancel_left _ (by positivity)]
    simp
    omega
  · obtain ⟨d, rfl⟩ : ∃ d, i = m + 1 + d := ⟨i - m - 1, by omega⟩
    rw [Nat.testBit_to_div_mod, Nat.testBit_to_div_mod]
    have h2 : (2 : Nat) ^ (m + 1 + d) = 2 ^ (m + 1) * 2 ^ d := by ring
    rw [h2, ← Nat.div_div_eq_div_mul, ← Nat.div_div_eq_div_mul,
      Nat.mul_div_cancel_left _ (by positivity)]
    have h3 : (2 ^ (m + 1) * c + 2 ^ m) / 2 ^ (m + 1) = c := by
      rw [Nat.add_comm, Nat.add_mul_div_left _ _ (by positivity),
        Nat.div_eq_of_lt (Nat.pow_lt_pow_right (by omega) (by omega))]
      omega
    rw [h3]
    have hne : m ≠ m + 1 + d := by omega
    simp [hne]

/-- Appending one bit to a packed prefix adds its positional weight. -/
theorem pbyteFrom_append (b : Bool) : ∀ (p : List Bool) (k : Nat), p.length ≤ k →
    pbyteFrom k (p ++ [b]) = pbyteFrom k p + (if b then 2 ^ (k - p.length) else 0) := by
  intro p
  induction p with
  | nil =>
    intro k _
    simp [pbyteFrom]
  | cons x rest ih =>
    intro k hk
    have hrl : rest.length ≤ k - 1 := by simp at hk; omega
    have hexp : k - 1 - rest.length = k - (rest.length + 1) := by omega
    simp only [List.cons_append, pbyteFrom, List.length_cons]
    rw [show rest.append [b] = rest ++ [b] from rfl, ih (k - 1) hrl, hexp]
    omega

/-- The source's current_byte update (bitwise or of the fresh bit into
the partial byte) is exactly the spec's packing of the extended bit
prefix. -/
theorem writeBit_cur (p : List Bool) (b : Bool) (hp : p.length < 8) :
    (if b then pbyteFrom 7 p ||| (1 <<< (7 - p.length)) else pbyteFrom 7 p)
      = pbyteFrom 7 (p ++ [b]) := by
  cases b
  · rw [pbyteFrom_append false p 7 (by omega)]
    simp
  · rw [pbyteFrom_append true p 7 (by omega), if_pos rfl, if_pos rfl, Nat.shiftLeft_eq,
      Nat.one_mul]
    obtain ⟨c, hc⟩ := pbyteFrom_dvd p 7 (by omega)
    have hexp : 8 - p.length = (7 - p.length) + 1 := by omega
    rw [hexp] at hc
    rw [hc]
    exact lor_pow_of_dvd c (7 - p.length)

/-- packChunks ignores the exact fuel once it exceeds the number of
bits. -/
theorem packChunks_congr : ∀ (f1 f2 : Nat) (bits : List Bool),
    bits.length < f1 → bits.length < f2 → packChunks f1 bits = packChunks f2 bits := by
  intro f1
  induction f1 with
  | zero => intro f2 bits h1 _; omega
  | succ f1 ih =>
    intro f2 bits h1 h2
    cases f2 with
    | zero => omega
    | succ f2 =>
      cases bits with
      | nil => rfl
      | cons b rest =>
        simp only [packChunks, List.cons.injEq, true_and]
        apply ih
        · simp at h1 ⊢
          omega
        · simp at h2 ⊢
          omega

/-- Unfold one chunk of the packing for a nonempty bit list. -/
theorem packBitsMSB_cons (bits : List Bool) (hne : bits ≠ []) :
    packBitsMSB bits = pbyteFrom 7 (bits.take 8) :: packBitsMSB (bits.drop 8) := by
  cases bits with
  | nil => exact absurd rfl hne
  | cons b rest =>
    simp only [packBitsMSB, List.length_cons, packChunks, List.cons.injEq, true_and]
    apply packChunks_congr
    · simp only [List.length_drop, List.length_cons]
      omega
    · omega

/-- Packing a full 8-bit chunk followed by the remainder. -/
theorem packBitsMSB_full (chunk rest : List Bool) (hc : chunk.length = 8) :
    packBitsMSB (chunk ++ rest) = pbyteFrom 7 chunk :: packBitsMSB rest := by
  rw [packBitsMSB_cons (chunk ++ rest) (by
    intro h
    have := congrArg List.length h
    simp [hc] at this)]
  congr 1
  · congr 1
    rw [List.take_append_eq_append_take, List.take_of_length_le (by omega)]
    simp [hc]
  · congr 1
    rw [List.drop_append_eq_append_drop]
    simp [hc]

/-- Packing a final partial (or exactly full) chunk alone. -/
theorem packBitsMSB_small (bits : List Bool) (hne : bits ≠ []) (hle : bits.length ≤ 8) :
    packBitsMSB bits = [pbyteFrom 7 bits] := by
  rw [packBitsMSB_cons bits hne, List.take_of_length_le hle,
    List.drop_eq_nil_of_le hle]
  rfl

/-- The writer, resumed from any partial byte, appends exactly the
spec's packing of the pending prefix followed by the new bits. -/
theorem writer_invariant : ∀ (bits p : List Bool) (buf : List Nat), p.length < 8 →
    ((BitWriter.writeAll ⟨buf, pbyteFrom 7 p, p.length⟩ bits).flush).buffer
      = buf ++ packBitsMSB (p ++ bits) := by
  intro bits
  induction bits with
  | nil =>
    intro p buf hp
    simp only [BitWriter.writeAll, List.foldl_nil, List.append_nil]
    cases hp0 : p.length with
    | zero =>
      have hpnil : p = [] := List.length_eq_zero.mp hp0
      subst hpnil
      simp [BitWriter.flush, packBitsMSB, packChunks]
    | succ n =>
      have hpne : p ≠ [] := by
        intro h
        subst h
        simp at hp0
      rw [BitWriter.flush, if_pos (by simp [hp0])]
      rw [packBitsMSB_small p hpne (by omega)]
  | cons b bs ih =>
    intro p buf hp
    have hstep : BitWriter.writeAll ⟨buf, pbyteFrom 7 p, p.length⟩ (b :: bs)
        = BitWriter.writeAll (BitWriter.writeBit ⟨buf, pbyteFrom 7 p, p.length⟩ b) bs := by
      simp [BitWriter.writeAll]
    rw [hstep]
    have hcons : p ++ b :: bs = (p ++ [b]) ++ bs := by simp
    rw [hcons]
    by_cases h8 : p.length + 1 = 8
    · have hwb : BitWriter.writeBit ⟨buf, pbyteFrom 7 p, p.length⟩ b
          = ⟨buf ++ [pbyteFrom 7 (p ++ [b])], 0, 0⟩ := by
        simp only [BitWriter.writeBit]
        rw [writeBit_cur p b hp, if_pos h8]
      rw [hwb]
      have hrec := ih [] (buf ++ [pbyteFrom 7 (p ++ [b])]) (by simp)
      simp only [pbyteFrom, List.length_nil, List.nil_append] at hrec
      rw [hrec, packBitsMSB_full (p ++ [b]) bs (by simp; omega)]
      simp
    · have hwb : BitWriter.writeBit ⟨buf, pbyteFrom 7 p, p.length⟩ b
          = ⟨buf, pbyteFrom 7 (p ++ [b]), (p ++ [b]).length⟩ := by
        simp only [BitWriter.writeBit]
        rw [writeBit_cur p b hp, if_neg h8]
        simp
      rw [hwb, ih (p ++ [b]) buf (by simp; omega)]

/-- Extracting bit k - j from a packed bit list recovers bit j of the
list. -/
theorem pbyteFrom_getBit : ∀ (p : List Bool) (k j : Nat), p.length ≤ k + 1 →
    j < p.length →
    pbyteFrom k p / 2 ^ (k - j) % 2 = (if p.getD j false then 1 else 0) := by
  intro p
  induction p with
  | nil => intro k j _ hj; simp at hj
  | cons b rest ih =>
    intro k j hk hj
    cases j with
    | zero =>
      simp only [pbyteFrom, List.getD_cons_zero, Nat.sub_zero]
      cases k with
      | zero =>
        have hr : rest = [] := by
          cases rest with
          | nil => rfl
          | cons x xs => simp at hk
        subst hr
        cases b <;> simp [pbyteFrom]
      | succ k =>
        have hsmall : pbyteFrom k rest < 2 ^ (k + 1) :=
          pbyteFrom_lt rest k (by simpa using hk)
        simp only [Nat.add_sub_cancel]
        cases b
        · rw [if_neg (by decide), if_neg (by decide), Nat.zero_add,
            Nat.div_eq_of_lt hsmall]
        · rw [if_pos rfl, if_pos rfl, Nat.add_comm,
            Nat.add_div_right _ (by positivity), Nat.div_eq_of_lt hsmall]
    | succ j =>
      cases k with
      | zero =>
        simp only [List.length_cons] at hk hj
        omega
      | succ k =>
        have hrk : rest.length ≤ k + 1 := by simpa using hk
        have hrj : j < rest.length := by simpa using hj
        have hexp : k + 1 - (j + 1) = k - j := by omega
        simp only [pbyteFrom, List.getD_cons_succ, hexp, Nat.add_sub_cancel]
        cases b
        · rw [if_neg (by decide), Nat.zero_add]
          exact ih k j hrk hrj
        · rw [if_pos rfl]
          have hdj : k - j ≤ k + 1 := by omega
          have hsplit : (2 : Nat) ^ (k + 1) = 2 ^ (k - j) * 2 ^ (j + 1) := by
            rw [← Nat.pow_add]
            congr 1
            omega
          rw [hsplit, Nat.mul_add_div (by positivity)]
          have heven : (2 : Nat) ^ (j + 1) = 2 * 2 ^ j := by ring
          have := ih k j hrk hrj
          omega

/-- Packing is unchanged by appended zero padding (within one byte). -/
theorem pbyteFrom_pad (p : List Bool) : ∀ (n : Nat), p.length + n ≤ 8 →
    pbyteFrom 7 (p ++ List.replicate n false) = pbyteFrom 7 p := by
  intro n
  induction n with
  | zero => intro _; simp
  | succ m ih =>
    intro hn
    rw [List.replicate_succ', ← List.append_assoc,
      pbyteFrom_append false (p ++ List.replicate m false) 7 (by simp; omega)]
    simp only [if_neg (by decide : ¬ (false = true)), Nat.add_zero]
    exact ih (by omega)

/-- Reading a + b bits is reading a bits then b bits. -/
theorem readN_append (m : Nat) : ∀ (r : BitReader) (n : Nat),
    r.readN (m + n) = ((r.readN m).1 ++ ((r.readN m).2.readN n).1,
      ((r.readN m).2.readN n).2) := by
  induction m with
  | zero =>
    intro r n
    simp [BitReader.readN]
  | succ m ih =>
    intro r n
    have hsucc : m + 1 + n = (m + n) + 1 := by omega
    rw [hsucc]
    simp only [BitReader.readN]
    rw [ih r.readBit.2 n]
    rfl

/-- Reading bits out of a byte that packs p ++ q ++ z, with p already
consumed, recovers q; the cursor ends past the byte exactly when p and q
fill it. -/
theorem read_within : ∀ (q p z : List Bool) (pre rest : List Nat),
    p.length + q.length + z.length = 8 → p.length < 8 →
    (BitReader.readN ⟨pre ++ pbyteFrom 7 (p ++ q ++ z) :: rest, pre.length, p.length⟩
        q.length)
      = (q, if p.length + q.length = 8
            then ⟨pre ++ pbyteFrom 7 (p ++ q ++ z) :: rest, pre.length + 1, 0⟩
            else ⟨pre ++ pbyteFrom 7 (p ++ q ++ z) :: rest, pre.length,
                  p.length + q.length⟩) := by
  intro q
  induction q with
  | nil =>
    intro p z pre rest hsum hp
    have h0 : ([] : List Bool).length = 0 := rfl
    rw [if_neg (by omega)]
    simp [BitReader.readN]
  | cons b q ih =>
    intro p z pre rest hsum hp
    simp only [List.length_cons] at hsum
    have hlenB : (p ++ (b :: q) ++ z).length = 8 := by simp; omega
    have hgetB : (pre ++ pbyteFrom 7 (p ++ (b :: q) ++ z) :: rest).getD pre.length 0
        = pbyteFrom 7 (p ++ (b :: q) ++ z) := by
      rw [List.getD_append_right _ _ _ _ (Nat.le_refl _)]
      simp
    have hgetj : (p ++ (b :: q) ++ z).getD p.length false = b := by
      rw [List.append_assoc, List.getD_append_right _ _ _ _ (Nat.le_refl _)]
      simp
    have hbit : pbyteFrom 7 (p ++ (b :: q) ++ z) / 2 ^ (7 - p.length) % 2
        = (if b then 1 else 0) := by
      have hgb := pbyteFrom_getBit (p ++ (b :: q) ++ z) 7 p.length (by omega) (by simp)
      rw [hgetj] at hgb
      exact hgb
    have hread : (⟨pre ++ pbyteFrom 7 (p ++ (b :: q) ++ z) :: rest, pre.length,
        p.length⟩ : BitReader).readBit
        = (b, if p.length + 1 = 8
              then ⟨pre ++ pbyteFrom 7 (p ++ (b :: q) ++ z) :: rest, pre.length + 1, 0⟩
              else ⟨pre ++ pbyteFrom 7 (p ++ (b :: q) ++ z) :: rest, pre.length,
                    p.length + 1⟩) := by
      rw [BitReader.readBit, if_neg (by simp)]
      simp only [hgetB, Nat.shiftRight_eq_div_pow, hbit]
      have hb : ((if b then 1 else 0) = 1) = (b = true) := by cases b <;> simp
      by_cases h8 : p.length + 1 = 8
      · rw [if_pos h8, if_pos h8]
        cases b <;> simp
      · rw [if_neg h8, if_neg h8]
        cases b <;> simp
    show BitReader.readN _ (q.length + 1) = _
    rw [BitReader.readN, hread]
    by_cases h8 : p.length + 1 = 8
    · rw [if_pos h8]
      have hq : q = [] := by
        cases q with
        | nil => rfl
        | cons x xs => simp at hsum; omega
      subst hq
      rw [if_pos (by simp; omega)]
      simp [BitReader.readN]
    · rw [if_neg h8]
      have hassoc : p ++ (b :: q) ++ z = (p ++ [b]) ++ q ++ z := by simp
      have hrec := ih (p ++ [b]) z pre rest (by simp; omega) (by simp; omega)
      rw [hassoc]
      simp only [List.length_append, List.length_cons, List.length_nil] at hrec ⊢
      rw [hrec]
      by_cases hfull : p.length + (q.length + 1) = 8
      · rw [if_pos (by omega), if_pos (by omega)]
      · rw [if_neg (by omega), if_neg (by omega)]
        have : p.length + 1 + q.length = p.length + (q.length + 1) := by omega
        rw [this]

/-- Reading back the packed bytes of a bit sequence, appended to any
already-consumed prefix, recovers the sequence. -/
theorem readN_pack : ∀ (fuel : Nat) (bits : List Bool) (pre : List Nat),
    bits.length ≤ fuel →
    ((⟨pre ++ packBitsMSB bits, pre.length, 0⟩ : BitReader).readN bits.length).1 = bits := by
  intro fuel
  induction fuel with
  | zero =>
    intro bits pre hle
    have hnil : bits = [] := List.length_eq_zero.mp (by omega)
    subst hnil
    simp [BitReader.readN]
  | succ fuel ih =>
    intro bits pre hle
    by_cases hne : bits = []
    · subst hne
      simp [BitReader.readN]
    · have hpos : 0 < bits.length := List.length_pos.mpr hne
      by_cases h8 : bits.length ≤ 8
      · rw [packBitsMSB_small bits hne h8]
        have hz :
            pbyteFrom 7 (([] : List Bool) ++ bits ++ List.replicate (8 - bits.length) false)
              = pbyteFrom 7 bits := by
          rw [List.nil_append]
          exact pbyteFrom_pad bits (8 - bits.length) (by omega)
        have hread := read_within bits [] (List.replicate (8 - bits.length) false) pre []
          (by simp; omega) (by simp)
        rw [hz] at hread
        simp only [List.length_nil, Nat.zero_add] at hread
        rw [hread]
      · have hchunk : (bits.take 8).length = 8 := by
          rw [List.length_take]
          omega
        have hsplit : bits.take 8 ++ bits.drop 8 = bits := List.take_append_drop 8 bits
        have hlen : bits.length = 8 + (bits.drop 8).length := by
          rw [List.length_drop]
          omega
        have hpack : packBitsMSB bits
            = pbyteFrom 7 (bits.take 8) :: packBitsMSB (bits.drop 8) := by
          conv_lhs => rw [← hsplit]
          exact packBitsMSB_full _ _ hchunk
        rw [hpack, hlen, readN_append]
        have hfirst := read_within (bits.take 8) [] [] pre (packBitsMSB (bits.drop 8))
          (by simp [hchunk]) (by simp)
        rw [show (([] : List Bool) ++ bits.take 8 ++ ([] : List Bool)) = bits.take 8
          by simp] at hfirst
        simp only [List.length_nil, Nat.zero_add, hchunk, if_true] at hfirst
        rw [hfirst]
        simp only [if_true]
        have hsec := ih (bits.drop 8) (pre ++ [pbyteFrom 7 (bits.take 8)]) (by
          rw [List.length_drop]
          omega)
        simp only [List.length_append, List.length_cons, List.length_nil,
          List.append_assoc, List.cons_append, List.nil_append, Nat.zero_add,
          Nat.add_zero] at hsec
        rw [hsec]
        exact hsplit

/-- C7: writing any bit sequence with BitWriter (WriteBit per bit, then
Flush) produces exactly the sequence packed MSB-first (bit 0 of the
sequence in bit 7 of byte 0, final byte zero-padded low), and reading
back that many bits with BitReader over the produced bytes recovers the
sequence unchanged. -/
theorem bitstream_roundtrip (bits : List Bool) :
    ((BitWriter.init.writeAll bits).flush).buffer = packBitsMSB bits
    ∧ ((BitReader.init (((BitWriter.init.writeAll bits).flush).buffer)).readN
        bits.length).1 = bits := by
  have hw : ((BitWriter.init.writeAll bits).flush).buffer = packBitsMSB bits := by
    have := writer_invariant bits [] [] (by simp)
    simpa [pbyteFrom] using this
  refine ⟨hw, ?_⟩
  rw [hw]
  have := readN_pack bits.length bits [] (Nat.le_refl _)
  simpa using this

/-! ## C9, C10: Decompress error handling -/

/-- C9: whenever the emit loop reads a match flag and the record's
distance exceeds the number of bytes emitted so far, it fails with
invalid-distance: the loop returns immediately with the error status
and the output exactly as it was, emitting no further tokens. -/
theorem decompress_invalid_distance (freqs cum matchData : List Nat)
    (origSize fuel : Nat) (br : BitReader) (rd : RansDec) (mp : Nat) (out : List Nat)
    (hlen : out.length < origSize)
    (hflag : (br.readBit).1 = true)
    (hmd : ¬ matchData.length < mp + 3)
    (hdist : out.length < matchData.getD mp 0 + 256 * matchData.getD (mp + 1) 0) :
    emitLoop freqs cum matchData origSize (fuel + 1) br rd mp out
      = (out, DecompStatus.invalidDistance) := by
  simp only [emitLoop, if_pos hlen, hflag, if_true, if_neg hmd, if_pos hdist]

/-- Witness for C9: a one-record stream whose distance 5 exceeds the
empty output; the loop stops with the invalid-distance error and no
output. -/
theorem decompress_invalid_distance_witness :
    emitLoop [] [] [5, 0, 1] 1 1 (BitReader.init [128]) (ransDecInit []) 0 []
      = ([], DecompStatus.invalidDistance) :=
  decompress_invalid_distance [] [] [5, 0, 1] 1 0 (BitReader.init [128])
    (ransDecInit []) 0 [] (by decide) (by decide) (by decide) (by decide)

/-- The forward copy only ever appends to the output. -/
theorem copyBytes_append : ∀ (n : Nat) (out : List Nat) (start : Nat),
    ∃ suffix, copyBytes out start n = out ++ suffix := by
  intro n
  induction n with
  | zero => intro out start; exact ⟨[], by simp [copyBytes]⟩
  | succ m ih =>
    intro out start
    obtain ⟨s, hs⟩ := ih (out ++ [out.getD start 0]) (start + 1)
    refine ⟨out.getD start 0 :: s, ?_⟩
    show copyBytes (out ++ [out.getD start 0]) (start + 1) m = out ++ out.getD start 0 :: s
    rw [hs, List.append_assoc]
    rfl

/-- The error paths of the emit loop keep the partial output: when the
loop ends in match-underflow or invalid-distance, the returned bytes
extend everything accumulated so far (nothing is discarded or rolled
back) and fall short of orig_size. -/
theorem emitLoop_error_keeps_output (freqs cum matchData : List Nat) (origSize : Nat) :
    ∀ (fuel : Nat) (br : BitReader) (rd : RansDec) (mp : Nat) (out : List Nat),
    ((emitLoop freqs cum matchData origSize fuel br rd mp out).2
        = DecompStatus.matchUnderflow
      ∨ (emitLoop freqs cum matchData origSize fuel br rd mp out).2
        = DecompStatus.invalidDistance) →
    (∃ suffix, (emitLoop freqs cum matchData origSize fuel br rd mp out).1
        = out ++ suffix)
    ∧ (emitLoop freqs cum matchData origSize fuel br rd mp out).1.length < origSize := by
  intro fuel
  induction fuel with
  | zero =>
    intro br rd mp out herr
    simp only [emitLoop] at herr
    rcases herr with h | h <;> exact absurd h (by simp)
  | succ fuel ih =>
    intro br rd mp out herr
    simp only [emitLoop] at herr ⊢
    by_cases hlen : out.length < origSize
    · rw [if_pos hlen] at herr ⊢
      by_cases hflag : (br.readBit).1 = true
      · simp only [hflag, if_true] at herr ⊢
        by_cases hmd : matchData.length < mp + 3
        · rw [if_pos hmd] at herr ⊢
          exact ⟨⟨[], by simp⟩, by simpa using hlen⟩
        · rw [if_neg hmd] at herr ⊢
          by_cases hdist : out.length < matchData.getD mp 0
              + 256 * matchData.getD (mp + 1) 0
          · rw [if_pos hdist] at herr ⊢
            exact ⟨⟨[], by simp⟩, by simpa using hlen⟩
          · rw [if_neg hdist] at herr ⊢
            obtain ⟨s1, hs1⟩ := copyBytes_append (matchData.getD (mp + 2) 0) out
              (out.length - (matchData.getD mp 0 + 256 * matchData.getD (mp + 1) 0))
            obtain ⟨⟨s2, hs2⟩, hlt⟩ := ih (br.readBit).2 rd (mp + 3) _ herr
            exact ⟨⟨s1 ++ s2, by rw [hs2, hs1, List.append_assoc]⟩, hlt⟩
      · simp only [Bool.not_eq_true] at hflag
        simp only [hflag, Bool.false_eq_true, if_false] at herr ⊢
        obtain ⟨⟨s2, hs2⟩, hlt⟩ := ih (br.readBit).2
          (ransDecodeStep freqs cum rd).2 mp _ herr
        exact ⟨⟨(ransDecodeStep freqs cum rd).1 :: s2, by
          rw [hs2, List.append_assoc]
          rfl⟩, hlt⟩
    · rw [if_neg hlen] at herr
      rcases herr with h | h <;> exact absurd h (by simp)

/-- C10: when Decompress hits a mid-stream error (match region
exhausted, or an invalid distance), the emit loop stops but the bytes
already reconstructed are kept: the result extends the accumulated
output and its length falls short of orig_size; `decompressBytes`
returns exactly that partial output as the bytes written to the output
file, so decode errors are not atomic.  The second conjunct states this
at the Decompress level: an erroring run writes out fewer than the
header's orig_size bytes (and not nothing retroactively erased — the
first conjunct forbids any rollback). -/
theorem decompress_error_nonatomic :
    (∀ (freqs cum matchData : List Nat) (origSize fuel : Nat) (br : BitReader)
      (rd : RansDec) (mp : Nat) (out : List Nat),
      ((emitLoop freqs cum matchData origSize fuel br rd mp out).2
          = DecompStatus.matchUnderflow
        ∨ (emitLoop freqs cum matchData origSize fuel br rd mp out).2
          = DecompStatus.invalidDistance) →
      (∃ suffix, (emitLoop freqs cum matchData origSize fuel br rd mp out).1
          = out ++ suffix)
      ∧ (emitLoop freqs cum matchData origSize fuel br rd mp out).1.length < origSize)
    ∧ (∀ a : List Nat,
      ((decompressBytes a).2 = DecompStatus.matchUnderflow
        ∨ (decompressBytes a).2 = DecompStatus.invalidDistance) →
      (decompressBytes a).1.length < readU32 a 4) := by
  refine ⟨fun freqs cum md o f br rd mp out herr =>
    emitLoop_error_keeps_output freqs cum md o f br rd mp out herr, ?_⟩
  intro a herr
  by_cases hmagic : readU32 a 0 ≠ 0x4D49444F
  · simp only [decompressBytes, if_pos hmagic] at herr
    rcases herr with h | h <;> exact absurd h (by simp)
  · simp only [decompressBytes, if_neg hmagic] at herr ⊢
    exact (emitLoop_error_keeps_output _ _ _ _ _ _ _ _ _ herr).2

/-- Witness for C10: a crafted artifact (magic, orig_size 2, a rANS
region holding one literal A, a one-bit flag byte, an empty match
region, and the 512-byte model of input A).  The decoder emits the
literal, then hits the exhausted match region: the partial output [65]
of length 1 < 2 is kept and returned. -/
theorem decompress_error_nonatomic_witness :
    (∃ suffix,
      (emitLoop (modelFreqs (modelBytes (countFreqs [65])))
        (cumFreqs (modelFreqs (modelBytes (countFreqs [65])))) [] 2 11
        (BitReader.init [64]) (ransDecInit [0, 0, 1, 0]) 0 []).1 = [] ++ suffix)
    ∧ (emitLoop (modelFreqs (modelBytes (countFreqs [65])))
        (cumFreqs (modelFreqs (modelBytes (countFreqs [65])))) [] 2 11
        (BitReader.init [64]) (ransDecInit [0, 0, 1, 0]) 0 []).1.length < 2 :=
  decompress_error_nonatomic.1 (modelFreqs (modelBytes (countFreqs [65])))
    (cumFreqs (modelFreqs (modelBytes (countFreqs [65])))) [] 2 11
    (BitReader.init [64]) (ransDecInit [0, 0, 1, 0]) 0 [] (by decide)

/-! ## C1, C2, C5, C8: concrete evaluations

The encoder renormalizes while state ≥ freq << 19 (the bound matching a
lower renormalization limit of 2^23), but flushes and renormalizes the
decoder against RANS_L = 2^16.  Whenever a renormalization byte is
emitted and the remaining state is still ≥ 2^16, the decoder never reads
that byte back at the mirrored step, desynchronizing the stream.  The
six distinct bytes ABCDEF already trigger this. -/

set_option maxRecDepth 1000000 in
/-- Witness for C3: the model of the single-byte input A sums to
PROB_SCALE, has 256 entries, gives the occurring byte a positive
frequency, and its cumulative table ends at PROB_SCALE. -/
theorem count_normalizes_witness :
    (countFreqs [65]).sum = PROB_SCALE
    ∧ (countFreqs [65]).length = 256
    ∧ (∀ b ∈ ([65] : List Nat), 1 ≤ (countFreqs [65]).getD b 0)
    ∧ (cumFreqs (countFreqs [65])).getD 256 0 = PROB_SCALE :=
  count_normalizes_to_prob_scale [65] (by decide) (by decide)

set_option maxRecDepth 1000000 in
/-- C1: the full pipeline loses data.  On the six-byte input ABCDEF the
artifact decompresses without any reported error to ACFDAE — not the
input.  (The first literal A survives because the stray renormalization
byte is only reached later; the remaining five literals decode from a
desynchronized state.) -/
theorem roundtrip_fails_on_ABCDEF :
    decompressBytes (compressBytes [65, 66, 67, 68, 69, 70])
      = ([65, 67, 70, 68, 65, 69], DecompStatus.ok)
    ∧ ([65, 67, 70, 68, 65, 69] : List Nat) ≠ [65, 66, 67, 68, 69, 70] := by
  exact ⟨by decide, by decide⟩

set_option maxRecDepth 1000000 in
/-- C2: rANS is not LIFO under the mismatched renormalization bounds.
With the model built from ABCDEF (every encoded symbol has frequency
682 ≥ 1), encoding A B C D E F in order and decoding six symbols yields
F E A E B E, not the reversal F E D C B A: the fifth encode emits a
renormalization byte the decoder never consumes. -/
theorem rans_reversal_fails :
    (∀ s ∈ ([65, 66, 67, 68, 69, 70] : List Nat),
      1 ≤ (countFreqs [65, 66, 67, 68, 69, 70]).getD s 0)
    ∧ (ransDecodeN (countFreqs [65, 66, 67, 68, 69, 70])
        (cumFreqs (countFreqs [65, 66, 67, 68, 69, 70])) 6
        (ransDecInit (ransFlush (ransEncodeList (countFreqs [65, 66, 67, 68, 69, 70])
          (cumFreqs (countFreqs [65, 66, 67, 68, 69, 70])) ransEncInit
          [65, 66, 67, 68, 69, 70])))).1
      = [70, 69, 65, 69, 66, 69]
    ∧ ([70, 69, 65, 69, 66, 69] : List Nat)
      ≠ List.reverse [65, 66, 67, 68, 69, 70] := by
  exact ⟨by decide, by decide, by decide⟩

set_option maxRecDepth 1000000 in
/-- Counterexample for C5: on 64 bytes of 0x58 the parser does not
produce one literal followed by (distance 1, length 3) matches — under
the no-self-overlap rule i + len < pos a distance-1 match can never
reach length 3. -/
theorem parse_XXXX_not_one_literal_then_dist1 :
    parseTokens (List.replicate 64 88)
      ≠ Token.lit 88 :: List.replicate 21 (Token.mat 1 3) := by decide

set_option maxRecDepth 1000000 in
/-- C5 amended: on 64 bytes of 0x58 the parser emits three literals X
(positions 1 and 2 can only match with length ≤ distance ≤ 2 < 3), then
matches (3,3), (6,6), (12,12), (24,24) whose lengths double — each
capped by length ≤ distance — and a final (48,16) capped by the end of
the input; the round-trip through compress and decompress reproduces
the input exactly. -/
theorem parse_XXXX_actual_and_roundtrip :
    parseTokens (List.replicate 64 88)
      = [Token.lit 88, Token.lit 88, Token.lit 88, Token.mat 3 3, Token.mat 6 6,
         Token.mat 12 12, Token.mat 24 24, Token.mat 48 16]
    ∧ decompressBytes (compressBytes (List.replicate 64 88))
      = (List.replicate 64 88, DecompStatus.ok) := by
  exact ⟨by decide, by decide⟩

set_option maxRecDepth 1000000 in
/-- Counterexample for C8: on input A the artifact is 541 bytes, but the
five size fields (original, rans, flags, match, model) plus 24 sum to
542 — the original-size field counts toward no region of the
artifact. -/
theorem header_five_fields_miscount :
    24 + readU32 (compressBytes [65]) 4 + readU32 (compressBytes [65]) 8
      + readU32 (compressBytes [65]) 12 + readU32 (compressBytes [65]) 16
      + readU32 (compressBytes [65]) 20 ≠ (compressBytes [65]).length := by decide

/-- The serialized model is always 256 two-byte entries: 512 bytes. -/
theorem modelBytes_length (freqs : List Nat) : (modelBytes freqs).length = 512 := by
  rw [modelBytes, List.length_flatMap]
  have hcomp : (List.length ∘ fun i =>
      ([freqs.getD i 0 % 256, freqs.getD i 0 / 256 % 256] : List Nat))
      = fun _ => 2 := by
    funext i
    rfl
  rw [hcomp, List.map_const', List.length_range, List.sum_replicate, smul_eq_mul]

/-- Reading a uint32_t right at a serialized field recovers its value
modulo 2^32. -/
theorem readU32_here (n : Nat) (rest : List Nat) :
    readU32 (u32le n ++ rest) 0 = n % U32 := by
  have hU : U32 = 4294967296 := rfl
  rw [readU32,
    List.getD_append _ _ _ _ (by simp [u32le]),
    List.getD_append _ _ _ _ (by simp [u32le]),
    List.getD_append _ _ _ _ (by simp [u32le]),
    List.getD_append _ _ _ _ (by simp [u32le])]
  simp only [u32le, List.getD_cons_zero, List.getD_cons_succ]
  rw [hU]
  omega

/-- Reading a uint32_t past a serialized field skips its four bytes. -/
theorem readU32_skip4 (n : Nat) (rest : List Nat) (k : Nat) :
    readU32 (u32le n ++ rest) (k + 4) = readU32 rest k := by
  have hlen : (u32le n).length = 4 := by simp [u32le]
  rw [readU32, readU32,
    List.getD_append_right _ _ _ _ (by omega),
    List.getD_append_right _ _ _ _ (by omega),
    List.getD_append_right _ _ _ _ (by omega),
    List.getD_append_right _ _ _ _ (by omega), hlen]
  have e1 : k + 4 - 4 = k := by omega
  have e2 : k + 4 + 1 - 4 = k + 1 := by omega
  have e3 : k + 4 + 2 - 4 = k + 2 := by omega
  have e4 : k + 4 + 3 - 4 = k + 3 := by omega
  rw [e1, e2, e3, e4]

/-- C8 amended: for every compressed artifact of a non-empty input
(whose region sizes fit in 32 bits, as every realistic input satisfies),
the header holds magic 0x4D49444F and model_size 512, and the FOUR
region size fields (rans, flags, match, model) plus the 24-byte header
sum to the artifact's total byte length.  The original-size field at
offset 4 describes the decompressed data, not a region of the artifact,
so the claim's five-field sum overshoots by orig_size
(`header_five_fields_miscount`). -/
theorem header_consistency (data : List Nat) (hne : data ≠ [])
    (hr : (ransBytesOf data).length < U32) (hf : (flagBytesOf data).length < U32)
    (hm : (matchBytesOf data).length < U32) :
    readU32 (compressBytes data) 0 = 0x4D49444F
    ∧ readU32 (compressBytes data) 20 = 512
    ∧ 24 + readU32 (compressBytes data) 8 + readU32 (compressBytes data) 12
        + readU32 (compressBytes data) 16 + readU32 (compressBytes data) 20
      = (compressBytes data).length := by
  have hU : U32 = 4294967296 := rfl
  have hc : compressBytes data
      = u32le 0x4D49444F ++ (u32le data.length ++ (u32le (ransBytesOf data).length
        ++ (u32le (flagBytesOf data).length ++ (u32le (matchBytesOf data).length
        ++ (u32le (modelBytes (countFreqs data)).length
        ++ (ransBytesOf data ++ (flagBytesOf data ++ (matchBytesOf data
        ++ modelBytes (countFreqs data))))))))) := by
    rw [compressBytes, if_neg hne]
    simp [List.append_assoc]
  have h0 : readU32 (compressBytes data) 0 = 0x4D49444F := by
    rw [hc, readU32_here]
    rw [hU]
  have h8 : readU32 (compressBytes data) 8 = (ransBytesOf data).length := by
    rw [hc, show (8 : Nat) = 4 + 4 from rfl, readU32_skip4,
      show (4 : Nat) = 0 + 4 from rfl, readU32_skip4, readU32_here,
      Nat.mod_eq_of_lt hr]
  have h12 : readU32 (compressBytes data) 12 = (flagBytesOf data).length := by
    rw [hc, show (12 : Nat) = 8 + 4 from rfl, readU32_skip4,
      show (8 : Nat) = 4 + 4 from rfl, readU32_skip4,
      show (4 : Nat) = 0 + 4 from rfl, readU32_skip4, readU32_here,
      Nat.mod_eq_of_lt hf]
  have h16 : readU32 (compressBytes data) 16 = (matchBytesOf data).length := by
    rw [hc, show (16 : Nat) = 12 + 4 from rfl, readU32_skip4,
      show (12 : Nat) = 8 + 4 from rfl, readU32_skip4,
      show (8 : Nat) = 4 + 4 from rfl, readU32_skip4,
      show (4 : Nat) = 0 + 4 from rfl, readU32_skip4, readU32_here,
      Nat.mod_eq_of_lt hm]
  have h20 : readU32 (compressBytes data) 20 = 512 := by
    rw [hc, show (20 : Nat) = 16 + 4 from rfl, readU32_skip4,
      show (16 : Nat) = 12 + 4 from rfl, readU32_skip4,
      show (12 : Nat) = 8 + 4 from rfl, readU32_skip4,
      show (8 : Nat) = 4 + 4 from rfl, readU32_skip4,
      show (4 : Nat) = 0 + 4 from rfl, readU32_skip4, readU32_here,
      modelBytes_length, Nat.mod_eq_of_lt (by rw [hU]; omega)]
  have hlen : (compressBytes data).length
      = 24 + ((ransBytesOf data).length + ((flagBytesOf data).length
        + ((matchBytesOf data).length + 512))) := by
    rw [hc]
    simp only [List.length_append, modelBytes_length]
    simp only [u32le, List.length_cons, List.length_nil]
    omega
  exact ⟨h0, h20, by omega⟩

set_option maxRecDepth 1000000 in
/-- Witness for C8 amended: the header of the artifact for input B. -/
theorem header_consistency_witness :
    readU32 (compressBytes [66]) 0 = 0x4D49444F
    ∧ readU32 (compressBytes [66]) 20 = 512
    ∧ 24 + readU32 (compressBytes [66]) 8 + readU32 (compressBytes [66]) 12
        + readU32 (compressBytes [66]) 16 + readU32 (compressBytes [66]) 20
      = (compressBytes [66]).length :=
  header_consistency [66] (by decide) (by decide) (by decide) (by decide)

end MiddleOut
